import Mathlib

/-!
# Verification of the study-guide generator core

A shallow embedding of the core routines of `src/app.py` (an AI study-guide
generator): the greedy paragraph-packing chunker `chunk_text`, the
line-oriented flashcard parser `parse_flashcards`, the sequential generation
pipeline `generate_content_with_gemini`, and the navigation state machine
of the flashcard viewer.  Python strings are modelled as `List Char`;
Python string truthiness (`None` and `""` are falsy) is modelled explicitly.
-/

namespace StudyGuide

/-- Python strings are modelled as lists of characters. -/
abbrev Str := List Char

/-- Python `text.split('\n')`: split on every newline, dropping the
separators; the empty string yields `[""]`, and the result always has one
more element than the number of newlines. -/
def splitNl : Str → List Str
  | [] => [[]]
  | c :: rest =>
      if c = '\n' then [] :: splitNl rest
      else
        match splitNl rest with
        | [] => [[c]]
        | p :: ps => (c :: p) :: ps

/-- The loop of `chunk_text` (src/app.py lines 47-54): greedily pack
paragraphs into `current_chunk`; on overflow emit the accumulator (even when
empty) and restart it from the current paragraph; after the loop emit the
final accumulator when non-empty (Python string truthiness). -/
def chunk_aux (chunk_size : Nat) : Str → List Str → List Str
  | current_chunk, [] => if current_chunk = [] then [] else [current_chunk]
  | current_chunk, paragraph :: rest =>
      if current_chunk.length + paragraph.length + 1 < chunk_size then
        chunk_aux chunk_size (current_chunk ++ paragraph ++ ['\n']) rest
      else
        current_chunk :: chunk_aux chunk_size (paragraph ++ ['\n']) rest

/-- The function `chunk_text` (src/app.py lines 43-55): split the text on
newlines and greedily pack the paragraphs into chunks bounded by
`chunk_size`. -/
def chunk_text (text : Str) (chunk_size : Nat := 3000) : List Str :=
  chunk_aux chunk_size [] (splitNl text)

/-- The characters Python `str.strip()` removes: exactly those for which
`str.isspace()` holds (ASCII whitespace, the information separators
`\x1c`-`\x1f`, `\x85`, `\xa0`, and the Unicode space characters). -/
def pySpaceChars : Str :=
  ['\x09', '\x0a', '\x0b', '\x0c', '\x0d', '\x1c', '\x1d', '\x1e',
   '\x1f', ' ', '\x85', '\xa0', '\u1680', '\u2000', '\u2001', '\u2002',
   '\u2003', '\u2004', '\u2005', '\u2006', '\u2007', '\u2008', '\u2009',
   '\u200a', '\u2028', '\u2029', '\u202f', '\u205f', '\u3000']

/-- Python whitespace test, as used by `str.strip()`. -/
def isSpace (c : Char) : Bool := c ∈ pySpaceChars

/-- Python `s.lstrip()`: drop leading whitespace. -/
def lstrip (s : Str) : Str := s.dropWhile isSpace

/-- Python `s.rstrip()`: drop trailing whitespace. -/
def rstrip (s : Str) : Str := (s.reverse.dropWhile isSpace).reverse

/-- Python `s.strip()`: drop leading and trailing whitespace. -/
def pyStrip (s : Str) : Str := rstrip (lstrip s)

/-- The keyword `"term:"` matched (case-insensitively) at the start of a
line by `parse_flashcards`. -/
def termKw : Str := "term:".toList

/-- The keyword `"definition:"` matched (case-insensitively) at the start
of a line by `parse_flashcards`. -/
def defKw : Str := "definition:".toList

/-- Python `line.lower().startswith("term:")`. -/
def isTermLine (line : Str) : Bool := (line.map Char.toLower).take 5 = termKw

/-- Python `line.lower().startswith("definition:")`. -/
def isDefLine (line : Str) : Bool := (line.map Char.toLower).take 11 = defKw

/-- A parsed flashcard: the dictionary `{"term": ..., "definition": ...}`
built by `parse_flashcards` (src/app.py line 72). -/
structure Flashcard where
  term : Str
  definition : Str
deriving DecidableEq, Repr

/-- Python truthiness of the `term` / `definition` variables of
`parse_flashcards`: `None` and the empty string are falsy. -/
def truthy : Option Str → Bool
  | none => false
  | some s => !s.isEmpty

/-- The guarded emission `if term and definition:
flashcards.append({"term": term, "definition": definition})` of
`parse_flashcards` (src/app.py lines 71-72 and 79-80). -/
def flushCard : Option Str → Option Str → List Flashcard
  | some t, some d => if t = [] ∨ d = [] then [] else [⟨t, d⟩]
  | _, _ => []

/-- The per-line loop of `parse_flashcards` (src/app.py lines 66-80):
strip the line; on a `term:`-prefixed line flush the pending pair and start
a new term (clearing the definition); on a `definition:`-prefixed line set
the definition only when a truthy term is pending; ignore other lines;
flush the pending pair at end of input. -/
def parseFlashcardsAux : Option Str → Option Str → List Str → List Flashcard
  | term, defn, [] => flushCard term defn
  | term, defn, l :: ls =>
      let line := pyStrip l
      if isTermLine line then
        flushCard term defn ++
          parseFlashcardsAux (some (pyStrip (line.drop 5))) none ls
      else if isDefLine line then
        if truthy term then
          parseFlashcardsAux term (some (pyStrip (line.drop 11))) ls
        else parseFlashcardsAux term defn ls
      else parseFlashcardsAux term defn ls

/-- The function `parse_flashcards` (src/app.py lines 59-82).  The
BeautifulSoup pass
`BeautifulSoup(f"<div>{raw_text}</div>").get_text()` is modelled as the
identity.  This is exact only for raw text containing none of the
markup-significant characters `<`, `>`, `&` (on such text there is no tag
to strip and no entity reference to decode); accordingly, every theorem
below that asserts exact preservation of content restricts that content
to `plainChar` strings via `goodField`.  The subsequent
`.strip().split('\n')` and the line loop are modelled exactly. -/
def parse_flashcards (raw_text : Str) : List Flashcard :=
  parseFlashcardsAux none none (splitNl (pyStrip raw_text))

/-- The line `"Term: X"` used to build a round-trip input for the parser. -/
def termLine (x : Str) : Str := "Term: ".toList ++ x

/-- The line `"Definition: Y"` used to build a round-trip input. -/
def defLine (y : Str) : Str := "Definition: ".toList ++ y

/-- Alternating `Term:` / `Definition:` lines for a list of pairs. -/
def mkLines (pairs : List (Str × Str)) : List Str :=
  pairs.flatMap fun p => [termLine p.1, defLine p.2]

/-- Join lines with single newline separators (no trailing newline). -/
def joinNl : List Str → Str
  | [] => []
  | [l] => l
  | l :: ls => l ++ '\n' :: joinNl ls

/-- The raw text made of alternating `Term: X` / `Definition: Y` lines. -/
def mkRaw (pairs : List (Str × Str)) : Str := joinNl (mkLines pairs)

/-- A character on which every stage of the real parser is the identity:
printable ASCII that is not one of the markup-significant characters
`<`, `>`, `&`.  On text whose characters are all plain, the BeautifulSoup
pass `BeautifulSoup(f"<div>{raw_text}</div>").get_text()` of src/app.py
lines 63-64 returns the text unchanged (there is no tag and no entity
reference to rewrite), and the only member of `pySpaceChars` that can
occur is the plain blank `\x20`. -/
def plainChar (c : Char) : Bool :=
  (0x20 ≤ c.toNat && c.toNat ≤ 0x7e) && !(c = '<') && !(c = '>') &&
    !(c = '&')

/-- A string that survives every stage of the real parser untouched:
non-empty, free of newlines, with no leading or trailing whitespace, and
made only of plain printable ASCII (no `<`, `>`, `&`), so that the
markup-stripping pass and Python `str.strip()` both leave it exactly as
written. -/
def goodField (x : Str) : Prop :=
  x ≠ [] ∧ '\n' ∉ x ∧ lstrip x = x ∧ rstrip x = x ∧
    ∀ c ∈ x, plainChar c = true

instance (x : Str) : Decidable (goodField x) := by
  unfold goodField; infer_instance

/-- The state of the flashcard viewer (src/app.py lines 246-294): the
JavaScript variables `currentIndex` and the `is-flipped` class of the
card element. -/
structure ViewerState where
  currentIndex : Nat
  flipped : Bool
deriving DecidableEq, Repr

/-- The events the viewer reacts to: the Next button, the Previous button,
and a click on the card (reveal toggle). -/
inductive ViewerEvent
  | next
  | prev
  | flip
deriving DecidableEq, Repr

/-- One step of the viewer state machine (src/app.py lines 273-290):
`nextBtn` increments `currentIndex` only when `currentIndex <
flashcards.length - 1`, `prevBtn` decrements only when `currentIndex > 0`,
and both call `showCard`, which removes the `is-flipped` class; a card
click toggles `is-flipped`. -/
def viewerStep (deckLen : Nat) (s : ViewerState) : ViewerEvent → ViewerState
  | .next =>
      if s.currentIndex < deckLen - 1 then ⟨s.currentIndex + 1, false⟩ else s
  | .prev =>
      if 0 < s.currentIndex then ⟨s.currentIndex - 1, false⟩ else s
  | .flip => ⟨s.currentIndex, !s.flipped⟩

/-- Run the viewer from a state over a sequence of events. -/
def runViewer (deckLen : Nat) (s : ViewerState) (es : List ViewerEvent) :
    ViewerState :=
  es.foldl (viewerStep deckLen) s

/-- The artifact kinds of the prompt catalog (src/app.py lines 87-105). -/
inductive GenerationType
  | summary
  | qa
  | flashcards
deriving DecidableEq, Repr

/-- The difficulty levels of the prompt catalog. -/
inductive DifficultyLevel
  | Beginner
  | Intermediate
  | Advanced
deriving DecidableEq, Repr

/-- A prompt template with its single `{text}` insertion point: the text
before and after the insertion point. -/
structure PromptTemplate where
  pre : Str
  post : Str
deriving DecidableEq, Repr

/-- The `PROMPTS` catalog (src/app.py lines 87-105), each template split
at its single `{text}` insertion point. -/
def PROMPTS : GenerationType → DifficultyLevel → PromptTemplate
  | .summary, .Beginner =>
      ⟨"Explain the main points of this text in simple, easy-to-understand language...\n\nText: \"\"\"".toList, "\"\"\"".toList⟩
  | .summary, .Intermediate =>
      ⟨"Provide a detailed summary covering the key arguments...\n\nText: \"\"\"".toList, "\"\"\"".toList⟩
  | .summary, .Advanced =>
      ⟨"Create a critical summary for a graduate-level audience...\n\nText: \"\"\"".toList, "\"\"\"".toList⟩
  | .qa, .Beginner =>
      ⟨"Generate basic factual questions and answers...\n\nText: \"\"\"".toList, "\"\"\"".toList⟩
  | .qa, .Intermediate =>
      ⟨"Generate questions that require understanding relationships...\n\nText: \"\"\"".toList, "\"\"\"".toList⟩
  | .qa, .Advanced =>
      ⟨"Generate challenging questions that require critical thinking...\n\nText: \"\"\"".toList, "\"\"\"".toList⟩
  | .flashcards, .Beginner =>
      ⟨"Identify 5-7 fundamental terms from this text. For each, provide a \x27Term:\x27 on one line and a \x27Definition:\x27 on the next, suitable for a beginner.\n\nText: \"\"\"".toList, "\"\"\"".toList⟩
  | .flashcards, .Intermediate =>
      ⟨"Identify 5-7 important technical terms from this text. For each, provide a \x27Term:\x27 on one line and a \x27Definition:\x27 on the next, suitable for a college student.\n\nText: \"\"\"".toList, "\"\"\"".toList⟩
  | .flashcards, .Advanced =>
      ⟨"Identify 5-7 nuanced or highly technical terms from this text. For each, provide a \x27Term:\x27 on one line and a \x27Definition:\x27 on the next, suitable for an expert.\n\nText: \"\"\"".toList, "\"\"\"".toList⟩

/-- Python `prompt_template.format(text=chunk)`: substitute the chunk into
the single insertion point of the template. -/
def formatPrompt (t : PromptTemplate) (chunk : Str) : Str :=
  t.pre ++ chunk ++ t.post

/-- The literal `"Error processing a chunk: "` of the inline error marker
(src/app.py line 117). -/
def errorMark : Str := "Error processing a chunk: ".toList

/-- A behaviour of the generation service: for each call index and prompt,
either a response text (`model.generate_content(prompt).text`) or the
string form of a raised exception. -/
def GeminiBehavior : Type := Nat → Str → Except Str Str

/-- The observable side effects of the generation loop, in execution
order: a call to the generation service, and a call to
`progress_bar.progress` with its fractional value. -/
inductive PipelineEvent
  | serviceCall (prompt : Str)
  | progressReport (value : ℚ)
deriving DecidableEq

/-- The loop of `generate_content_with_gemini` (src/app.py lines 111-118):
for each chunk build the prompt, call the service, append the response plus
a blank line on success or the inline error marker plus a blank line on
failure, then report progress `(i + 1) / total`. -/
def genLoop (svc : GeminiBehavior) (tmpl : PromptTemplate) (total : Nat) :
    Nat → Str → List PipelineEvent → List Str → Str × List PipelineEvent
  | _, full_response, events, [] => (full_response, events)
  | i, full_response, events, chunk :: rest =>
      let prompt := formatPrompt tmpl chunk
      let piece :=
        match svc i prompt with
        | .ok r => r ++ ['\n', '\n']
        | .error e => errorMark ++ e ++ ['\n', '\n']
      genLoop svc tmpl total (i + 1) (full_response ++ piece)
        (events ++
          [.serviceCall prompt,
           .progressReport (((i : ℚ) + 1) / (total : ℚ))])
        rest

/-- The function `generate_content_with_gemini` (src/app.py lines
107-119), with the
generation service abstracted as an arbitrary behaviour `svc` and the
progress bar recorded as events.  Returns the accumulated
`full_response` and the event trace. -/
def generate_content_with_gemini (svc : GeminiBehavior)
    (text_chunks : List Str) (generation_type : GenerationType)
    (difficulty : DifficultyLevel) : Str × List PipelineEvent :=
  genLoop svc (PROMPTS generation_type difficulty) text_chunks.length
    0 [] [] text_chunks

/-- The per-chunk contribution to the concatenated output, as the spec
describes it: the response followed by a blank line on success, the inline
error marker followed by a blank line on failure. -/
def chunkContribution (svc : GeminiBehavior) (tmpl : PromptTemplate)
    (i : Nat) (chunk : Str) : Str :=
  match svc i (formatPrompt tmpl chunk) with
  | .ok r => r ++ ['\n', '\n']
  | .error e => errorMark ++ e ++ ['\n', '\n']

/-! ## Equation lemmas for the recursive definitions -/

theorem chunk_aux_nil (size : Nat) (cur : Str) :
    chunk_aux size cur [] = if cur = [] then [] else [cur] := rfl

theorem chunk_aux_cons (size : Nat) (cur p : Str) (rest : List Str) :
    chunk_aux size cur (p :: rest) =
      if cur.length + p.length + 1 < size then
        chunk_aux size (cur ++ p ++ ['\n']) rest
      else cur :: chunk_aux size (p ++ ['\n']) rest := rfl

/-! ## Chunker lemmas -/

theorem splitNl_ne_nil (s : Str) : splitNl s ≠ [] := by
  induction s with
  | nil => simp [splitNl]
  | cons c rest ih =>
      simp only [splitNl]
      split
      · simp
      · split
        · simp
        · simp

theorem flatten_splitNl (s : Str) :
    ((splitNl s).map (· ++ ['\n'])).flatten = s ++ ['\n'] := by
  induction s with
  | nil => simp [splitNl]
  | cons c rest ih =>
      by_cases hc : c = '\n'
      · subst hc
        simp only [splitNl, if_pos rfl, List.map_cons, List.flatten_cons]
        simpa using ih
      · simp only [splitNl, if_neg hc]
        cases h : splitNl rest with
        | nil => exact absurd h (splitNl_ne_nil rest)
        | cons p ps =>
            rw [h] at ih
            simp only [List.map_cons, List.flatten_cons, List.cons_append] at ih ⊢
            rw [List.append_assoc] at ih ⊢
            rw [ih]

theorem chunk_aux_flatten (size : Nat) (ps : List Str) (cur : Str) :
    (chunk_aux size cur ps).flatten = cur ++ (ps.map (· ++ ['\n'])).flatten := by
  induction ps generalizing cur with
  | nil => by_cases h : cur = [] <;> simp [chunk_aux_nil, h]
  | cons p rest ih =>
      rw [chunk_aux_cons]
      split
      · rw [ih]
        simp [List.append_assoc]
      · simp only [List.flatten_cons, ih, List.map_cons]

theorem getLast?_cons_of_ne_nil (a : Str) {t : List Str} (h : t ≠ []) :
    (a :: t).getLast? = t.getLast? := by
  cases t with
  | nil => exact absurd rfl h
  | cons b t' => exact List.getLast?_cons_cons

theorem chunk_aux_getLast (size : Nat) :
    ∀ ps cur, ps ≠ [] →
      ∃ l, (chunk_aux size cur ps).getLast? = some l ∧ l.getLast? = some '\n'
  | [], _, h => absurd rfl h
  | [p], cur, _ => by
      rw [chunk_aux_cons]
      split
      · refine ⟨cur ++ p ++ ['\n'], ?_, ?_⟩
        · have hne : ¬(cur ++ p ++ ['\n'] = []) := by simp
          rw [chunk_aux_nil, if_neg hne]
          rfl
        · simp [List.getLast?_append]
      · refine ⟨p ++ ['\n'], ?_, ?_⟩
        · have hne : ¬(p ++ ['\n'] = []) := by simp
          rw [chunk_aux_nil, if_neg hne, getLast?_cons_of_ne_nil cur (by simp)]
          rfl
        · simp [List.getLast?_append]
  | p :: q :: rest, cur, _ => by
      rw [chunk_aux_cons]
      split
      · exact chunk_aux_getLast size (q :: rest) (cur ++ p ++ ['\n']) (by simp)
      · obtain ⟨l, hl, hnl⟩ :=
          chunk_aux_getLast size (q :: rest) (p ++ ['\n']) (by simp)
        have hne : chunk_aux size (p ++ ['\n']) (q :: rest) ≠ [] := by
          intro h0
          rw [h0] at hl
          simp at hl
        exact ⟨l, by rw [getLast?_cons_of_ne_nil cur hne, hl], hnl⟩

theorem chunk_aux_size_bound (size : Nat) (ps0 : List Str) :
    ∀ ps cur, (∀ p ∈ ps, p ∈ ps0) →
      (cur.length < size ∨
        ∃ p ∈ ps0, cur = p ++ ['\n'] ∧ size ≤ p.length + 1) →
      ∀ c ∈ chunk_aux size cur ps,
        c.length < size ∨
          ∃ p ∈ ps0, c = p ++ ['\n'] ∧ size ≤ p.length + 1 := by
  intro ps
  induction ps with
  | nil =>
      intro cur _ hcur c hc
      by_cases h : cur = [] <;> simp [chunk_aux, h] at hc
      exact hc ▸ hcur
  | cons p rest ih =>
      intro cur hsub hcur c hc
      simp only [chunk_aux] at hc
      split at hc
      · refine ih _ (fun q hq => hsub q (List.mem_cons_of_mem p hq)) ?_ c hc
        left
        simpa using ‹cur.length + p.length + 1 < size›
      · rcases List.mem_cons.mp hc with rfl | hc
        · exact hcur
        · refine ih _ (fun q hq => hsub q (List.mem_cons_of_mem p hq)) ?_ c hc
          rcases Nat.lt_or_ge (p.length + 1) size with hlt | hge
          · left; simpa using hlt
          · right
            exact ⟨p, hsub p (List.mem_cons_self p rest), rfl, hge⟩

/-! ## Claim theorems about the chunker -/

/-- C2 (counterexample): as stated, the claim fails.  With `maxSize = 3`
and the single-paragraph input `"aa"`, `chunk_text` emits the chunk
`"aa\n"` of length 3, which is not `< 3`, yet the paragraph's own length
is 2, which does not exceed 3. -/
theorem chunk_size_bound_counterexample :
    ¬ (∀ c ∈ chunk_text "aa".toList 3,
        c.length < 3 ∨
          ∃ p ∈ splitNl "aa".toList, c = p ++ ['\n'] ∧ 3 < p.length) := by
  decide

/-- C2 (amended): for every input text and every positive `maxSize`, every
chunk emitted by `chunk_text` has length strictly less than `maxSize`,
except a chunk that consists of a single whole paragraph followed by the
appended newline whose total length (paragraph length + 1) is at least
`maxSize`; no paragraph is split or truncated, the over-long chunk being a
whole paragraph of the input. -/
theorem chunk_size_bound_amended (text : Str) (size : Nat) (hsize : 0 < size) :
    ∀ c ∈ chunk_text text size,
      c.length < size ∨
        ∃ p ∈ splitNl text, c = p ++ ['\n'] ∧ size ≤ p.length + 1 := by
  intro c hc
  refine chunk_aux_size_bound size (splitNl text) (splitNl text)
    [] (fun p hp => hp) ?_ c hc
  left
  simpa using hsize

/-- C2 (witness): the amended bound at a concrete input. -/
theorem chunk_size_bound_witness :
    0 < 4 ∧
      ∀ c ∈ chunk_text "a\nbb".toList 4,
        c.length < 4 ∨
          ∃ p ∈ splitNl "a\nbb".toList, c = p ++ ['\n'] ∧ 4 ≤ p.length + 1 :=
  ⟨by decide, chunk_size_bound_amended "a\nbb".toList 4 (by decide)⟩

/-- C3: concatenating all chunks returned by `chunk_text`, in order,
yields exactly the input text followed by the single trailing newline the
algorithm appends at the final paragraph boundary; hence removing that
trailing newline recovers the input, and no paragraph is lost or
reordered. -/
theorem chunk_concat_reconstructs (text : Str) (size : Nat) :
    (chunk_text text size).flatten = text ++ ['\n'] ∧
    ((chunk_text text size).flatten).dropLast = text := by
  have h : (chunk_text text size).flatten = text ++ ['\n'] := by
    rw [chunk_text, chunk_aux_flatten, flatten_splitNl]
    rfl
  exact ⟨h, by rw [h]; simp⟩

/-- C8: the code does NOT filter empty chunks.  On the single-paragraph
input `"aaaa"` with `maxSize = 3` (the same overflow-after-flush shape
arises at the default 3000 for any first paragraph of length ≥ 2999),
`chunk_text` emits the empty string as its first chunk, and the button
handler (src/app.py line 320) passes the result of `chunk_text` to
`generate_content_with_gemini` unchanged. -/
theorem empty_chunk_reaches_pipeline :
    ([] : Str) ∈ chunk_text "aaaa".toList 3 ∧
    chunk_text "aaaa".toList 3 = [[], "aaaa\n".toList] := by
  decide

/-- C9: for every input text and every `maxSize`, `chunk_text` returns a
non-empty list whose final element is a non-empty string ending in a
newline; in particular at the default chunk size
`chunk_text "" = ["\n"]`. -/
theorem chunk_text_last_newline :
    (∀ (text : Str) (size : Nat),
        chunk_text text size ≠ [] ∧
          ∃ l, (chunk_text text size).getLast? = some l ∧ l ≠ [] ∧
            l.getLast? = some '\n') ∧
    chunk_text [] 3000 = [['\n']] := by
  refine ⟨fun text size => ?_, by decide⟩
  obtain ⟨l, hl, hnl⟩ :=
    chunk_aux_getLast size (splitNl text) [] (splitNl_ne_nil text)
  have hne : chunk_text text size ≠ [] := by
    intro h0
    rw [chunk_text] at h0
    rw [h0] at hl
    simp at hl
  have hlne : l ≠ [] := by
    intro h0
    rw [h0] at hnl
    simp at hnl
  exact ⟨hne, l, hl, hlne, hnl⟩

/-! ## Stripping and line-splitting lemmas -/

theorem parseFlashcardsAux_nil (t d : Option Str) :
    parseFlashcardsAux t d [] = flushCard t d := rfl

theorem parseFlashcardsAux_cons (t d : Option Str) (l : Str) (ls : List Str) :
    parseFlashcardsAux t d (l :: ls) =
      if isTermLine (pyStrip l) then
        flushCard t d ++
          parseFlashcardsAux (some (pyStrip ((pyStrip l).drop 5))) none ls
      else if isDefLine (pyStrip l) then
        if truthy t then
          parseFlashcardsAux t (some (pyStrip ((pyStrip l).drop 11))) ls
        else parseFlashcardsAux t d ls
      else parseFlashcardsAux t d ls := rfl

theorem lstrip_cons_of_space {c : Char} (h : isSpace c = true) (s : Str) :
    lstrip (c :: s) = lstrip s := by
  simp [lstrip, List.dropWhile_cons, h]

theorem lstrip_cons_of_not_space {c : Char} (h : isSpace c = false) (s : Str) :
    lstrip (c :: s) = c :: s := by
  simp [lstrip, List.dropWhile_cons, h]

theorem dropWhile_append_of_ne_nil {p : Char → Bool} :
    ∀ {l₁ : Str} (l₂ : Str), List.dropWhile p l₁ ≠ [] →
      List.dropWhile p (l₁ ++ l₂) = List.dropWhile p l₁ ++ l₂
  | [], l₂, h => absurd rfl h
  | c :: l₁, l₂, h => by
      by_cases hc : p c
      · rw [List.cons_append, List.dropWhile_cons, if_pos hc,
          dropWhile_append_of_ne_nil l₂ (by rwa [List.dropWhile_cons, if_pos hc] at h),
          List.dropWhile_cons, if_pos hc]
      · rw [List.cons_append, List.dropWhile_cons, if_neg hc,
          List.dropWhile_cons, if_neg hc, List.cons_append]

theorem rstrip_append {x : Str} (a : Str) (hx : x ≠ []) (hr : rstrip x = x) :
    rstrip (a ++ x) = a ++ x := by
  have hdw : List.dropWhile isSpace x.reverse = x.reverse := by
    have h := congrArg List.reverse hr
    simpa [rstrip] using h
  have hne : List.dropWhile isSpace x.reverse ≠ [] := by
    rw [hdw]
    simpa using hx
  rw [rstrip, List.reverse_append, dropWhile_append_of_ne_nil _ hne, hdw]
  simp

theorem pyStrip_space_cons {x : Str} (hl : lstrip x = x) (hr : rstrip x = x) :
    pyStrip (' ' :: x) = x := by
  rw [pyStrip, lstrip_cons_of_space (by decide), hl, hr]

theorem joinNl_nil : joinNl [] = [] := rfl

theorem joinNl_single (l : Str) : joinNl [l] = l := rfl

theorem joinNl_cons_cons (l l' : Str) (ls : List Str) :
    joinNl (l :: l' :: ls) = l ++ '\n' :: joinNl (l' :: ls) := rfl

theorem joinNl_ne_nil {l : Str} (hl : l ≠ []) (ls : List Str) :
    joinNl (l :: ls) ≠ [] := by
  cases ls with
  | nil => simpa [joinNl_single] using hl
  | cons l' ls' =>
      rw [joinNl_cons_cons]
      simp

theorem rstrip_joinNl :
    ∀ (ls : List Str) (l : Str),
      (∀ m ∈ l :: ls, m ≠ [] ∧ rstrip m = m) →
      rstrip (joinNl (l :: ls)) = joinNl (l :: ls)
  | [], l, h => by
      rw [joinNl_single]
      exact (h l (List.mem_cons_self l [])).2
  | l' :: ls', l, h => by
      have hx : rstrip (joinNl (l' :: ls')) = joinNl (l' :: ls') :=
        rstrip_joinNl ls' l' fun m hm => h m (List.mem_cons_of_mem l hm)
      have hne : joinNl (l' :: ls') ≠ [] :=
        joinNl_ne_nil (h l' (by simp)).1 ls'
      rw [joinNl_cons_cons]
      have harr : l ++ '\n' :: joinNl (l' :: ls') =
          (l ++ ['\n']) ++ joinNl (l' :: ls') := by
        simp
      rw [harr, rstrip_append _ hne hx]

theorem splitNl_no_newline : ∀ {l : Str}, '\n' ∉ l → splitNl l = [l]
  | [], _ => rfl
  | c :: l, h => by
      have hc : ¬(c = '\n') := fun hc => h (hc ▸ List.mem_cons_self c l)
      have hl : splitNl l = [l] :=
        splitNl_no_newline fun hm => h (List.mem_cons_of_mem c hm)
      simp only [splitNl, if_neg hc, hl]

theorem splitNl_append_newline :
    ∀ {l : Str} (t : Str), '\n' ∉ l →
      splitNl (l ++ '\n' :: t) = l :: splitNl t
  | [], t, _ => by simp [splitNl]
  | c :: l, t, h => by
      have hc : ¬(c = '\n') := fun hc => h (hc ▸ List.mem_cons_self c l)
      have hl : splitNl (l ++ '\n' :: t) = l :: splitNl t :=
        splitNl_append_newline t fun hm => h (List.mem_cons_of_mem c hm)
      rw [List.cons_append]
      simp only [splitNl, if_neg hc, hl]

theorem splitNl_joinNl :
    ∀ {lines : List Str}, lines ≠ [] → (∀ l ∈ lines, '\n' ∉ l) →
      splitNl (joinNl lines) = lines
  | [], h, _ => absurd rfl h
  | [l], _, hnl => by
      rw [joinNl_single]
      exact splitNl_no_newline (hnl l (by simp))
  | l :: l' :: ls, _, hnl => by
      have ih : splitNl (joinNl (l' :: ls)) = l' :: ls :=
        splitNl_joinNl (by simp) fun m hm => hnl m (List.mem_cons_of_mem l hm)
      rw [joinNl_cons_cons, splitNl_append_newline _ (hnl l (by simp)), ih]

/-! ## Keyword-line lemmas -/

theorem isSpace_toLower_self {c : Char} (h : isSpace c = true) :
    Char.toLower c = c := by
  have hall : ∀ x ∈ pySpaceChars, Char.toLower x = x := by decide
  have hc : c ∈ pySpaceChars := by simpa [isSpace] using h
  exact hall c hc

theorem termLine_eq (x : Str) :
    termLine x = 'T' :: 'e' :: 'r' :: 'm' :: ':' :: ' ' :: x := rfl

theorem defLine_eq (y : Str) :
    defLine y = 'D' :: 'e' :: 'f' :: 'i' :: 'n' :: 'i' :: 't' :: 'i' ::
      'o' :: 'n' :: ':' :: ' ' :: y := rfl

theorem isTermLine_termLine (x : Str) : isTermLine (termLine x) = true := by
  have h : ((termLine x).map Char.toLower).take 5 = termKw := by
    rw [← List.map_take]
    rfl
  simp [isTermLine, h]

theorem pyStrip_termLine {x : Str} (hx : goodField x) :
    pyStrip (termLine x) = termLine x := by
  obtain ⟨hne, -, -, hr, -⟩ := hx
  have h1 : lstrip (termLine x) = termLine x := by
    rw [termLine_eq]
    exact lstrip_cons_of_not_space (by decide) _
  rw [pyStrip, h1, termLine]
  exact rstrip_append _ hne hr

theorem pyStrip_defLine {y : Str} (hy : goodField y) :
    pyStrip (defLine y) = defLine y := by
  obtain ⟨hne, -, -, hr, -⟩ := hy
  have h1 : lstrip (defLine y) = defLine y := by
    rw [defLine_eq]
    exact lstrip_cons_of_not_space (by decide) _
  rw [pyStrip, h1, defLine]
  exact rstrip_append _ hne hr

theorem isDefLine_defLine (y : Str) : isDefLine (defLine y) = true := by
  have h : ((defLine y).map Char.toLower).take 11 = defKw := by
    rw [← List.map_take]
    rfl
  simp [isDefLine, h]

theorem isTermLine_false_of_isDefLine {line : Str}
    (h : isDefLine line = true) : isTermLine line = false := by
  have h11 : (line.map Char.toLower).take 11 = defKw := by
    simpa [isDefLine] using h
  have h5 : (line.map Char.toLower).take 5 = 'd' :: 'e' :: 'f' :: 'i' ::
      'n' :: [] := by
    have h' := congrArg (List.take 5) h11
    rw [List.take_take] at h'
    simpa using h'
  simp [isTermLine, h5, termKw]

theorem drop5_termLine (x : Str) : (termLine x).drop 5 = ' ' :: x := rfl

theorem drop11_defLine (y : Str) : (defLine y).drop 11 = ' ' :: y := rfl

theorem truthy_some {x : Str} (hx : x ≠ []) : truthy (some x) = true := by
  simp [truthy, List.isEmpty_eq_true, hx]

theorem flushCard_none_snd (t : Option Str) : flushCard t none = [] := by
  cases t <;> rfl

theorem flushCard_some_some {t d : Str} (ht : t ≠ []) (hd : d ≠ []) :
    flushCard (some t) (some d) = [⟨t, d⟩] := by
  simp [flushCard, ht, hd]

/-! ## Parser step lemmas -/

theorem parseAux_termLine (t d : Option Str) {x : Str} (hx : goodField x)
    (ls : List Str) :
    parseFlashcardsAux t d (termLine x :: ls) =
      flushCard t d ++ parseFlashcardsAux (some x) none ls := by
  have hl := hx.2.2.1
  have hr := hx.2.2.2.1
  rw [parseFlashcardsAux_cons, pyStrip_termLine hx, isTermLine_termLine,
    if_pos rfl, drop5_termLine, pyStrip_space_cons hl hr]

theorem parseAux_defLine {x : Str} (hx : x ≠ []) (d : Option Str) {y : Str}
    (hy : goodField y) (ls : List Str) :
    parseFlashcardsAux (some x) d (defLine y :: ls) =
      parseFlashcardsAux (some x) (some y) ls := by
  have hl := hy.2.2.1
  have hr := hy.2.2.2.1
  rw [parseFlashcardsAux_cons, pyStrip_defLine hy,
    isTermLine_false_of_isDefLine (isDefLine_defLine y), isDefLine_defLine,
    truthy_some hx, drop11_defLine, pyStrip_space_cons hl hr]
  simp

theorem parseAux_mkLines :
    ∀ (pairs : List (Str × Str)),
      (∀ p ∈ pairs, goodField p.1 ∧ goodField p.2) →
      ∀ t d, parseFlashcardsAux t d (mkLines pairs) =
        flushCard t d ++ pairs.map fun p => Flashcard.mk p.1 p.2
  | [], _, t, d => by
      simp [mkLines, parseFlashcardsAux_nil]
  | p :: rest, hgood, t, d => by
      obtain ⟨hp1, hp2⟩ := hgood p (List.mem_cons_self p rest)
      have hml : mkLines (p :: rest) =
          termLine p.1 :: defLine p.2 :: mkLines rest := rfl
      rw [hml, parseAux_termLine t d hp1, parseAux_defLine hp1.1 none hp2,
        parseAux_mkLines rest (fun q hq => hgood q (List.mem_cons_of_mem p hq))
          (some p.1) (some p.2),
        flushCard_some_some hp1.1 hp2.1]
      simp

theorem rstrip_termLine {x : Str} (hx : goodField x) :
    rstrip (termLine x) = termLine x := by
  rw [termLine]
  exact rstrip_append _ hx.1 hx.2.2.2.1

theorem rstrip_defLine {y : Str} (hy : goodField y) :
    rstrip (defLine y) = defLine y := by
  rw [defLine]
  exact rstrip_append _ hy.1 hy.2.2.2.1

theorem newline_not_mem_termLine {x : Str} (hx : '\n' ∉ x) :
    '\n' ∉ termLine x := by
  rw [termLine_eq]
  simp [hx]

theorem newline_not_mem_defLine {y : Str} (hy : '\n' ∉ y) :
    '\n' ∉ defLine y := by
  rw [defLine_eq]
  simp [hy]

theorem mkLines_facts :
    ∀ (pairs : List (Str × Str)),
      (∀ p ∈ pairs, goodField p.1 ∧ goodField p.2) →
      ∀ m ∈ mkLines pairs, m ≠ [] ∧ rstrip m = m ∧ '\n' ∉ m
  | [], _, m, hm => by simp [mkLines] at hm
  | p :: rest, hgood, m, hm => by
      obtain ⟨hp1, hp2⟩ := hgood p (List.mem_cons_self p rest)
      have hml : mkLines (p :: rest) =
          termLine p.1 :: defLine p.2 :: mkLines rest := rfl
      rw [hml] at hm
      rcases List.mem_cons.mp hm with rfl | hm
      · exact ⟨by rw [termLine_eq]; simp, rstrip_termLine hp1,
          newline_not_mem_termLine hp1.2.1⟩
      rcases List.mem_cons.mp hm with rfl | hm
      · exact ⟨by rw [defLine_eq]; simp, rstrip_defLine hp2,
          newline_not_mem_defLine hp2.2.1⟩
      · exact mkLines_facts rest
          (fun q hq => hgood q (List.mem_cons_of_mem p hq)) m hm

theorem lstrip_mkRaw_cons (p : Str × Str) (rest : List (Str × Str)) :
    lstrip (mkRaw (p :: rest)) = mkRaw (p :: rest) := by
  have h : mkRaw (p :: rest) =
      'T' :: ('e' :: 'r' :: 'm' :: ':' :: ' ' :: p.1 ++
        '\n' :: joinNl (defLine p.2 :: mkLines rest)) := rfl
  rw [h]
  exact lstrip_cons_of_not_space (by decide) _

theorem pyStrip_mkRaw {p : Str × Str} {rest : List (Str × Str)}
    (hgood : ∀ q ∈ p :: rest, goodField q.1 ∧ goodField q.2) :
    pyStrip (mkRaw (p :: rest)) = mkRaw (p :: rest) := by
  have hml : mkLines (p :: rest) =
      termLine p.1 :: defLine p.2 :: mkLines rest := rfl
  have hr : rstrip (mkRaw (p :: rest)) = mkRaw (p :: rest) := by
    rw [mkRaw, hml]
    refine rstrip_joinNl _ _ fun m hm => ?_
    have hm' : m ∈ mkLines (p :: rest) := by rw [hml]; exact hm
    exact ⟨(mkLines_facts _ hgood m hm').1, (mkLines_facts _ hgood m hm').2.1⟩
  rw [pyStrip, lstrip_mkRaw_cons, hr]

theorem splitNl_mkRaw {p : Str × Str} {rest : List (Str × Str)}
    (hgood : ∀ q ∈ p :: rest, goodField q.1 ∧ goodField q.2) :
    splitNl (mkRaw (p :: rest)) = mkLines (p :: rest) := by
  have hml : mkLines (p :: rest) =
      termLine p.1 :: defLine p.2 :: mkLines rest := rfl
  rw [mkRaw]
  exact splitNl_joinNl (by rw [hml]; simp)
    fun l hl => (mkLines_facts _ hgood l hl).2.2

/-! ## Claim theorems about the flashcard parser round-trip -/

/-- C4 (counterexample): as stated (for every list of pairs), the claim
fails.  For the single pair `("", "b")` the constructed raw text is
`"Term: \nDefinition: b"`, and `parse_flashcards` returns no record at
all (the empty pending term is falsy in Python, so the `Definition:` line
is ignored and nothing is flushed), not one record with those exact
values. -/
theorem parse_roundtrip_counterexample :
    parse_flashcards (mkRaw [(([] : Str), "b".toList)]) = [] ∧
    parse_flashcards (mkRaw [(([] : Str), "b".toList)]) ≠
      [Flashcard.mk [] "b".toList] := by
  decide

/-- C4 (amended): for every list of pairs whose components are non-empty,
made of plain printable ASCII (no `<`, `>`, `&`, so the markup-stripping
pass leaves them unchanged), newline-free, and carrying no leading or
trailing whitespace, the raw text built of alternating `Term: X` /
`Definition: Y` lines parses back to exactly those pairs, in order, with
exact values. -/
theorem parse_roundtrip_amended :
    ∀ (pairs : List (Str × Str)),
      (∀ p ∈ pairs, goodField p.1 ∧ goodField p.2) →
      parse_flashcards (mkRaw pairs) =
        pairs.map fun p => Flashcard.mk p.1 p.2
  | [], _ => by decide
  | p :: rest, hgood => by
      rw [parse_flashcards, pyStrip_mkRaw hgood, splitNl_mkRaw hgood,
        parseAux_mkLines _ hgood none none]
      rfl

/-- C4 (witness): the amended round-trip at a concrete two-pair input. -/
theorem parse_roundtrip_witness :
    (∀ p ∈ [("a".toList, "b".toList), ("c".toList, "d".toList)],
        goodField p.1 ∧ goodField p.2) ∧
    parse_flashcards
        (mkRaw [("a".toList, "b".toList), ("c".toList, "d".toList)]) =
      List.map (fun p => Flashcard.mk p.1 p.2)
        [("a".toList, "b".toList), ("c".toList, "d".toList)] :=
  ⟨by decide,
    parse_roundtrip_amended
      [("a".toList, "b".toList), ("c".toList, "d".toList)] (by decide)⟩

/-! ## Parser robustness lemmas -/

theorem parseAux_no_defLines :
    ∀ (ls : List Str) (t : Option Str),
      (∀ l ∈ ls, isDefLine (pyStrip l) = false) →
      parseFlashcardsAux t none ls = []
  | [], t, _ => flushCard_none_snd t
  | l :: ls, t, h => by
      rw [parseFlashcardsAux_cons]
      by_cases ht : isTermLine (pyStrip l) = true
      · rw [if_pos ht, flushCard_none_snd, List.nil_append]
        exact parseAux_no_defLines ls _
          fun m hm => h m (List.mem_cons_of_mem l hm)
      · have hd : ¬(isDefLine (pyStrip l) = true) := by
          rw [h l (List.mem_cons_self l ls)]
          simp
        rw [if_neg ht, if_neg hd]
        exact parseAux_no_defLines ls t
          fun m hm => h m (List.mem_cons_of_mem l hm)

theorem parse_two_lines_kw {kw1 kw2 x y : Str}
    (hkw1 : kw1.map Char.toLower = termKw)
    (hkw2 : kw2.map Char.toLower = defKw)
    (hx : goodField x) (hy : goodField y) :
    parse_flashcards (joinNl [kw1 ++ ' ' :: x, kw2 ++ ' ' :: y]) =
      [Flashcard.mk x y] := by
  obtain ⟨k, kw1', rfl⟩ : ∃ k kw1', kw1 = k :: kw1' := by
    cases kw1 with
    | nil => exact absurd hkw1 (by decide)
    | cons k kw1' => exact ⟨k, kw1', rfl⟩
  have hk : Char.toLower k = 't' := by
    have h' : Char.toLower k :: kw1'.map Char.toLower =
        't' :: 'e' :: 'r' :: 'm' :: ':' :: [] := by
      rw [← List.map_cons]
      exact hkw1
    injection h'
  have hks : isSpace k = false := by
    cases hkb : isSpace k with
    | false => rfl
    | true =>
        have hkk := isSpace_toLower_self hkb
        rw [hkk] at hk
        rw [hk] at hkb
        exact absurd hkb (by decide)
  have hlen1 : (k :: kw1').length = 5 := by
    have h' := congrArg List.length hkw1
    rw [List.length_map] at h'
    exact h'.trans (by decide)
  have hlen2 : kw2.length = 11 := by
    have h' := congrArg List.length hkw2
    rw [List.length_map] at h'
    exact h'.trans (by decide)
  set L1 : Str := (k :: kw1') ++ ' ' :: x with hL1
  set L2 : Str := kw2 ++ ' ' :: y with hL2
  have hstrip1 : pyStrip L1 = L1 := by
    have hls : lstrip L1 = L1 := by
      rw [hL1, List.cons_append]
      exact lstrip_cons_of_not_space hks _
    have harr : L1 = ((k :: kw1') ++ [' ']) ++ x := by
      rw [hL1]
      simp
    have hrs : rstrip L1 = L1 := by
      rw [harr]
      exact rstrip_append _ hx.1 hx.2.2.2.1
    rw [pyStrip, hls, hrs]
  have hstrip2 : pyStrip L2 = L2 := by
    have hkw2ne : kw2 ≠ [] := by
      intro h0
      rw [h0] at hkw2
      exact absurd hkw2 (by decide)
    obtain ⟨k2, kw2', rfl⟩ : ∃ k2 kw2', kw2 = k2 :: kw2' := by
      cases kw2 with
      | nil => exact absurd rfl hkw2ne
      | cons k2 kw2' => exact ⟨k2, kw2', rfl⟩
    have hk2 : Char.toLower k2 = 'd' := by
      have h' : Char.toLower k2 :: kw2'.map Char.toLower = defKw := by
        rw [← List.map_cons]
        exact hkw2
      rw [show defKw = 'd' :: 'e' :: 'f' :: 'i' :: 'n' :: 'i' :: 't' ::
        'i' :: 'o' :: 'n' :: ':' :: [] from rfl] at h'
      injection h'
    have hk2s : isSpace k2 = false := by
      cases hkb : isSpace k2 with
      | false => rfl
      | true =>
          have hkk := isSpace_toLower_self hkb
          rw [hkk] at hk2
          rw [hk2] at hkb
          exact absurd hkb (by decide)
    have hls : lstrip L2 = L2 := by
      rw [hL2, List.cons_append]
      exact lstrip_cons_of_not_space hk2s _
    have harr : L2 = ((k2 :: kw2') ++ [' ']) ++ y := by
      rw [hL2]
      simp
    have hrs : rstrip L2 = L2 := by
      rw [harr]
      exact rstrip_append _ hy.1 hy.2.2.2.1
    rw [pyStrip, hls, hrs]
  have hterm1 : isTermLine L1 = true := by
    have htake : (L1.map Char.toLower).take 5 = termKw := by
      rw [hL1, List.map_append, hkw1]
      rw [show (5 : Nat) = termKw.length from by decide, List.take_left]
    simp [isTermLine, htake]
  have hdrop1 : L1.drop 5 = ' ' :: x := by
    rw [hL1, ← hlen1, List.drop_left]
  have hdef2 : isDefLine L2 = true := by
    have htake : (L2.map Char.toLower).take 11 = defKw := by
      rw [hL2, List.map_append, hkw2]
      rw [show (11 : Nat) = defKw.length from by decide, List.take_left]
    simp [isDefLine, htake]
  have hdrop2 : L2.drop 11 = ' ' :: y := by
    rw [hL2, ← hlen2, List.drop_left]
  have hwhole : joinNl [L1, L2] = L1 ++ '\n' :: L2 := rfl
  have hnl1 : '\n' ∉ L1 := by
    intro hmem
    rw [hL1] at hmem
    rcases List.mem_append.mp hmem with hmem | hmem
    · have h2 : Char.toLower '\n' ∈ (k :: kw1').map Char.toLower :=
        List.mem_map_of_mem _ hmem
      rw [hkw1] at h2
      exact absurd h2 (by decide)
    · rcases List.mem_cons.mp hmem with h2 | h2
      · exact absurd h2 (by decide)
      · exact hx.2.1 h2
  have hnl2 : '\n' ∉ L2 := by
    intro hmem
    rw [hL2] at hmem
    rcases List.mem_append.mp hmem with hmem | hmem
    · have h2 : Char.toLower '\n' ∈ kw2.map Char.toLower :=
        List.mem_map_of_mem _ hmem
      rw [hkw2] at h2
      exact absurd h2 (by decide)
    · rcases List.mem_cons.mp hmem with h2 | h2
      · exact absurd h2 (by decide)
      · exact hy.2.1 h2
  have hstripAll : pyStrip (joinNl [L1, L2]) = joinNl [L1, L2] := by
    have hls : lstrip (joinNl [L1, L2]) = joinNl [L1, L2] := by
      rw [hwhole, hL1, List.cons_append, List.cons_append]
      exact lstrip_cons_of_not_space hks _
    have harr : joinNl [L1, L2] = (L1 ++ '\n' :: (kw2 ++ [' '])) ++ y := by
      rw [hwhole, hL2]
      simp
    have hrs : rstrip (joinNl [L1, L2]) = joinNl [L1, L2] := by
      conv_lhs => rw [harr]
      rw [rstrip_append _ hy.1 hy.2.2.2.1, ← harr]
    rw [pyStrip, hls, hrs]
  have hsplit : splitNl (joinNl [L1, L2]) = [L1, L2] := by
    refine splitNl_joinNl (by simp) fun l hl => ?_
    rcases List.mem_cons.mp hl with rfl | hl
    · exact hnl1
    rcases List.mem_cons.mp hl with rfl | hl
    · exact hnl2
    · simp at hl
  rw [parse_flashcards, hstripAll, hsplit, parseFlashcardsAux_cons,
    hstrip1]
  rw [hterm1, if_pos rfl, hdrop1,
    pyStrip_space_cons hx.2.2.1 hx.2.2.2.1, parseFlashcardsAux_cons, hstrip2]
  rw [isTermLine_false_of_isDefLine hdef2, hdef2, truthy_some hx.1,
    hdrop2, pyStrip_space_cons hy.2.2.1 hy.2.2.2.1]
  simp [parseFlashcardsAux_nil, flushCard_some_some hx.1 hy.1, flushCard]
  exact ⟨hx.1, hy.1⟩

/-! ## Claim theorems about parser robustness and record invariants -/

/-- C5: (1) a `Definition:` line arriving with no term pending (no
preceding `Term:` line) is silently dropped; (2) pending terms with no
`Definition:` line anywhere in the remaining input (only `Term:` lines or
junk) never produce a record; (3) a pending term with no definition yet is
dropped, not emitted, when the next `Term:` line arrives; (4) keyword
matching is case-insensitive in the keyword only, and the term and
definition content keeps its original case — stated for plain printable
ASCII content (`goodField`), on which the markup-stripping pass is the
identity, so that only the line loop of the program can act on it. -/
theorem parse_robustness :
    (∀ l rest, isDefLine (pyStrip l) = true →
        parseFlashcardsAux none none (l :: rest) =
          parseFlashcardsAux none none rest) ∧
    (∀ ls t, (∀ l ∈ ls, isDefLine (pyStrip l) = false) →
        parseFlashcardsAux t none ls = []) ∧
    (∀ t l rest, isTermLine (pyStrip l) = true →
        parseFlashcardsAux (some t) none (l :: rest) =
          parseFlashcardsAux (some (pyStrip ((pyStrip l).drop 5))) none
            rest) ∧
    (∀ kw1 kw2 x y, kw1.map Char.toLower = termKw →
        kw2.map Char.toLower = defKw → goodField x → goodField y →
        parse_flashcards (joinNl [kw1 ++ ' ' :: x, kw2 ++ ' ' :: y]) =
          [Flashcard.mk x y]) := by
  refine ⟨fun l rest h => ?_, fun ls t h => parseAux_no_defLines ls t h,
    fun t l rest h => ?_, fun kw1 kw2 x y h1 h2 hx hy =>
      parse_two_lines_kw h1 h2 hx hy⟩
  · rw [parseFlashcardsAux_cons]
    have ht : ¬(isTermLine (pyStrip l) = true) := by
      rw [isTermLine_false_of_isDefLine h]
      simp
    rw [if_neg ht, if_pos h]
    simp [truthy]
  · rw [parseFlashcardsAux_cons, if_pos h, flushCard_none_snd,
      List.nil_append]

/-- C5 (witness): the four robustness statements at concrete inputs. -/
theorem parse_robustness_witness :
    (isDefLine (pyStrip "Definition: b".toList) = true ∧
      parseFlashcardsAux none none
          ["Definition: b".toList, "Term: q".toList] =
        parseFlashcardsAux none none ["Term: q".toList]) ∧
    ((∀ l ∈ ["junk".toList, "Term: q".toList],
        isDefLine (pyStrip l) = false) ∧
      parseFlashcardsAux (some "q".toList) none
        ["junk".toList, "Term: q".toList] = []) ∧
    (isTermLine (pyStrip "Term: r".toList) = true ∧
      parseFlashcardsAux (some "q".toList) none ["Term: r".toList] =
        parseFlashcardsAux
          (some (pyStrip ((pyStrip "Term: r".toList).drop 5))) none []) ∧
    ("TERM:".toList.map Char.toLower = termKw ∧
      "DEFINITION:".toList.map Char.toLower = defKw ∧
      goodField "a".toList ∧ goodField "b".toList ∧
      parse_flashcards
          (joinNl ["TERM:".toList ++ ' ' :: "a".toList,
            "DEFINITION:".toList ++ ' ' :: "b".toList]) =
        [Flashcard.mk "a".toList "b".toList]) :=
  ⟨⟨by decide, parse_robustness.1 _ _ (by decide)⟩,
    ⟨by decide, parse_robustness.2.1 _ _ (by decide)⟩,
    ⟨by decide, parse_robustness.2.2.1 _ _ _ (by decide)⟩,
    by decide, by decide, by decide, by decide,
    parse_robustness.2.2.2 _ _ _ _ (by decide) (by decide) (by decide)
      (by decide)⟩

/-- Every card ever held in the output list has non-empty fields. -/
theorem flushCard_mem {t d : Option Str} {card : Flashcard}
    (h : card ∈ flushCard t d) :
    card.term ≠ [] ∧ card.definition ≠ [] := by
  match t, d with
  | none, _ => simp [flushCard] at h
  | some t', none => simp [flushCard] at h
  | some t', some d' =>
      by_cases hc : t' = [] ∨ d' = []
      · simp [flushCard, hc] at h
      · simp [flushCard, hc] at h
        push_neg at hc
        rw [h]
        exact ⟨hc.1, hc.2⟩

theorem parseAux_mem_nonempty :
    ∀ (ls : List Str) (t d : Option Str) {card : Flashcard},
      card ∈ parseFlashcardsAux t d ls →
      card.term ≠ [] ∧ card.definition ≠ []
  | [], _, _, _, h => flushCard_mem h
  | l :: ls, t, d, card, h => by
      rw [parseFlashcardsAux_cons] at h
      by_cases h1 : isTermLine (pyStrip l) = true
      · rw [if_pos h1] at h
        rcases List.mem_append.mp h with h | h
        · exact flushCard_mem h
        · exact parseAux_mem_nonempty ls _ _ h
      · rw [if_neg h1] at h
        by_cases h2 : isDefLine (pyStrip l) = true
        · rw [if_pos h2] at h
          by_cases h3 : truthy t = true
          · rw [if_pos h3] at h
            exact parseAux_mem_nonempty ls _ _ h
          · rw [if_neg h3] at h
            exact parseAux_mem_nonempty ls _ _ h
        · rw [if_neg h2] at h
          exact parseAux_mem_nonempty ls _ _ h

/-- C6: for every raw input text, every record returned by
`parse_flashcards` has a non-empty term and a non-empty definition: a
`Term:` or `Definition:` line with an empty remainder after trimming never
yields a record with an empty field, because the Python truthiness guards
(`if term and definition`, `if term`) treat the empty string as false. -/
theorem parse_records_nonempty (raw : Str) (card : Flashcard)
    (h : card ∈ parse_flashcards raw) :
    card.term ≠ [] ∧ card.definition ≠ [] :=
  parseAux_mem_nonempty _ _ _ h

/-- C6 (witness): the invariant at a concrete parse. -/
theorem parse_records_nonempty_witness :
    Flashcard.mk "a".toList "b".toList ∈
        parse_flashcards "Term: a\nDefinition: b".toList ∧
      (Flashcard.mk "a".toList "b".toList).term ≠ [] ∧
      (Flashcard.mk "a".toList "b".toList).definition ≠ [] :=
  ⟨by decide,
    parse_records_nonempty "Term: a\nDefinition: b".toList _ (by decide)⟩

/-! ## Viewer lemmas -/

theorem viewerStep_index_lt {K : Nat} (hK : 0 < K) (s : ViewerState)
    (hs : s.currentIndex < K) (e : ViewerEvent) :
    (viewerStep K s e).currentIndex < K := by
  cases e with
  | next =>
      simp only [viewerStep]
      split
      · simp only []
        omega
      · exact hs
  | prev =>
      simp only [viewerStep]
      split
      · simp only []
        omega
      · exact hs
  | flip => exact hs

theorem runViewer_index_lt {K : Nat} (hK : 0 < K) :
    ∀ (es : List ViewerEvent) (s : ViewerState), s.currentIndex < K →
      (runViewer K s es).currentIndex < K
  | [], _, hs => hs
  | e :: es, s, hs =>
      runViewer_index_lt hK es _ (viewerStep_index_lt hK s hs e)

theorem runViewer_replicate_next (K : Nat) :
    ∀ (m i : Nat), i + m ≤ K - 1 →
      runViewer K ⟨i, false⟩ (List.replicate m .next) = ⟨i + m, false⟩
  | 0, i, _ => by simp [runViewer]
  | m + 1, i, h => by
      have hi : i < K - 1 := by omega
      have h1 : runViewer K ⟨i, false⟩ (List.replicate (m + 1) .next) =
          runViewer K ⟨i + 1, false⟩ (List.replicate m .next) := by
        rw [List.replicate_succ, runViewer, List.foldl_cons]
        rw [show viewerStep K ⟨i, false⟩ .next = ⟨i + 1, false⟩ from by
          simp [viewerStep, hi]]
        rfl
      rw [h1, runViewer_replicate_next K m (i + 1) (by omega)]
      congr 1
      omega

/-! ## Claim theorem about the viewer -/

/-- C7: for a non-empty deck of size `K`, starting at index 0: `Next`
increments `currentIndex` exactly when `currentIndex < K - 1` and is a
no-op at `K - 1`; `Previous` decrements exactly when `currentIndex > 0`
and is a no-op at 0; every effective navigation resets the reveal flag to
front-facing; the invariant `currentIndex < K` holds after every event
sequence; and `K - 1` `Next` events from index 0 reach exactly index
`K - 1`. -/
theorem viewer_state_machine (K : Nat) (hK : 1 ≤ K) :
    (∀ es, (runViewer K ⟨0, false⟩ es).currentIndex < K) ∧
    (∀ s : ViewerState, s.currentIndex < K - 1 →
        viewerStep K s .next = ⟨s.currentIndex + 1, false⟩) ∧
    (∀ s : ViewerState, s.currentIndex = K - 1 →
        viewerStep K s .next = s) ∧
    (∀ s : ViewerState, 0 < s.currentIndex →
        viewerStep K s .prev = ⟨s.currentIndex - 1, false⟩) ∧
    (∀ s : ViewerState, s.currentIndex = 0 → viewerStep K s .prev = s) ∧
    runViewer K ⟨0, false⟩ (List.replicate (K - 1) .next) =
      ⟨K - 1, false⟩ := by
  refine ⟨fun es => runViewer_index_lt hK es _ (by simpa using hK),
    fun s hs => by simp [viewerStep, hs],
    fun s hs => by simp [viewerStep, hs],
    fun s hs => by simp [viewerStep, hs],
    fun s hs => by simp [viewerStep, hs],
    ?_⟩
  rw [runViewer_replicate_next K (K - 1) 0 (by omega)]
  congr 1
  omega

/-- C7 (witness): the state machine facts for a deck of size 3. -/
theorem viewer_state_machine_witness :
    1 ≤ 3 ∧
      ((∀ es, (runViewer 3 ⟨0, false⟩ es).currentIndex < 3) ∧
        (∀ s : ViewerState, s.currentIndex < 3 - 1 →
            viewerStep 3 s .next = ⟨s.currentIndex + 1, false⟩) ∧
        (∀ s : ViewerState, s.currentIndex = 3 - 1 →
            viewerStep 3 s .next = s) ∧
        (∀ s : ViewerState, 0 < s.currentIndex →
            viewerStep 3 s .prev = ⟨s.currentIndex - 1, false⟩) ∧
        (∀ s : ViewerState, s.currentIndex = 0 →
            viewerStep 3 s .prev = s) ∧
        runViewer 3 ⟨0, false⟩ (List.replicate (3 - 1) .next) =
          ⟨3 - 1, false⟩) :=
  ⟨by decide, viewer_state_machine 3 (by decide)⟩

/-! ## Pipeline lemmas -/

theorem genLoop_nil (svc : GeminiBehavior) (tmpl : PromptTemplate)
    (total i : Nat) (full : Str) (events : List PipelineEvent) :
    genLoop svc tmpl total i full events [] = (full, events) := rfl

theorem genLoop_cons (svc : GeminiBehavior) (tmpl : PromptTemplate)
    (total i : Nat) (full : Str) (events : List PipelineEvent)
    (chunk : Str) (rest : List Str) :
    genLoop svc tmpl total i full events (chunk :: rest) =
      genLoop svc tmpl total (i + 1)
        (full ++ chunkContribution svc tmpl i chunk)
        (events ++
          [.serviceCall (formatPrompt tmpl chunk),
           .progressReport (((i : ℚ) + 1) / (total : ℚ))])
        rest := rfl

theorem genLoop_eq (svc : GeminiBehavior) (tmpl : PromptTemplate)
    (total : Nat) :
    ∀ (chunks : List Str) (i : Nat) (full : Str)
      (events : List PipelineEvent),
      genLoop svc tmpl total i full events chunks =
        (full ++ ((chunks.enumFrom i).map
            fun p => chunkContribution svc tmpl p.1 p.2).flatten,
         events ++ ((chunks.enumFrom i).map fun p =>
            [PipelineEvent.serviceCall (formatPrompt tmpl p.2),
             PipelineEvent.progressReport
               ((p.1 + 1 : ℚ) / (total : ℚ))]).flatten)
  | [], i, full, events => by
      rw [genLoop_nil]
      simp [List.enumFrom]
  | chunk :: rest, i, full, events => by
      rw [genLoop_cons, genLoop_eq svc tmpl total rest (i + 1)]
      simp [List.enumFrom, List.append_assoc]

/-! ## Claim theorems about the generation pipeline -/

/-- C1: for every service behaviour, chunk sequence, artifact kind and
difficulty, the returned text is the concatenation, in chunk order, of the
per-chunk contributions (a successful call contributes its response
followed by a blank line; a failed call contributes
`"Error processing a chunk: <message>"` followed by a blank line instead
of propagating), so no failure prevents later chunks; and the event trace
is, per chunk in order, one service call immediately followed by one
progress report of value `(i + 1) / total`. -/
theorem generate_content_concat_and_progress (svc : GeminiBehavior)
    (text_chunks : List Str) (generation_type : GenerationType)
    (difficulty : DifficultyLevel) :
    generate_content_with_gemini svc text_chunks generation_type
        difficulty =
      (((text_chunks.enum).map fun p =>
          chunkContribution svc (PROMPTS generation_type difficulty)
            p.1 p.2).flatten,
       ((text_chunks.enum).map fun p =>
          [PipelineEvent.serviceCall
              (formatPrompt (PROMPTS generation_type difficulty) p.2),
           PipelineEvent.progressReport
              ((p.1 + 1 : ℚ) / (text_chunks.length : ℚ))]).flatten) := by
  rw [generate_content_with_gemini, genLoop_eq]
  simp [List.enum]

/-- C10: on an empty chunk sequence the pipeline returns the empty string,
performs no service call and no progress report (so the division
`(i + 1) / len(text_chunks)` is never evaluated). -/
theorem generate_content_empty_chunks (svc : GeminiBehavior)
    (generation_type : GenerationType) (difficulty : DifficultyLevel) :
    generate_content_with_gemini svc [] generation_type difficulty =
      ([], []) := rfl

end StudyGuide
